import Mathlib

set_option maxRecDepth 8192

/-!
Verification development for the searchophile line-matching engine
(`src/grep.py`).  Byte strings are modelled as `List Nat` (one `Nat` per
byte / code point).  Each definition is a shallow embedding of the Python
function named in its doc comment.
-/

/-- The source constant `FileIterable.LINE_BYTE_LIMIT = 128 * 1024`. -/
def LINE_BYTE_LIMIT : Nat := 128 * 1024

/-- Python `l[-n:]` on byte strings: the last `n` elements. -/
def lastN (n : Nat) (l : List Nat) : List Nat := l.drop (l.length - n)

/-- Python `str.lower` restricted to the ASCII range (the only inputs the
claims exercise); other code points are unchanged. -/
def pyLower (b : Nat) : Nat := if 65 ≤ b ∧ b ≤ 90 then b + 32 else b

/-- Python `bytes.decode()` success, modelled for the ASCII range: a byte
string decodes iff every byte is below 128.  (Inputs in all concrete
claims are ASCII, where this is exact.) -/
def asciiOk (l : List Nat) : Bool := l.all (fun b => b < 128)

/-- The byte-reading loop shared by `AutoInputFileIterable.__next__` and
`StdinIterable.__next__` (src/grep.py lines 52-70 and 109-126): read one
byte at a time, append to `b` while `len(b) < limit`, track the rolling
suffix `e` of length `nl.length`, stop when `e = nl` (delimiter found) or
the stream ends.  Returns `(b, remaining stream, hit-end-of-stream)`. -/
def readLineAux (nl : List Nat) (limit : Nat) :
    List Nat → List Nat → List Nat → List Nat × List Nat × Bool
  | b, e, stream =>
    if e = nl then (b, stream, false)
    else
      match stream with
      | [] => (b, [], true)
      | x :: rest =>
        readLineAux nl limit (if b.length < limit then b ++ [x] else b)
          (lastN nl.length (e ++ [x])) rest

/-- State of an `AutoInputFileIterable`: the unread bytes and whether the
file object is still open (`self._fp is not None`). -/
structure AutoFileState where
  stream : List Nat
  fpOpen : Bool
  deriving DecidableEq, Repr

/-- `AutoInputFileIterable.__next__` (src/grep.py lines 52-83): runs the
byte loop; on end-of-stream closes the file; returns the accumulated
bytes if non-empty, otherwise signals `StopIteration` (`none`). -/
def autoNext (nl : List Nat) (limit : Nat) (st : AutoFileState) :
    Option (List Nat) × AutoFileState :=
  if st.fpOpen then
    let r := readLineAux nl limit [] [] st.stream
    if r.1 ≠ [] then (some r.1, ⟨r.2.1, !r.2.2⟩)
    else (none, ⟨r.2.1, false⟩)
  else (none, st)

/-- State of a `StdinIterable`: unread bytes and `self._eof_detected`. -/
structure StdinState where
  stream : List Nat
  eofDetected : Bool
  deriving DecidableEq, Repr

/-- `StdinIterable.__next__` (src/grep.py lines 109-133): like the file
version but returns the accumulated bytes even when empty; only a second
call after end-of-stream raises `StopIteration`. -/
def stdinNext (nl : List Nat) (limit : Nat) (st : StdinState) :
    Option (List Nat) × StdinState :=
  if st.eofDetected then (none, st)
  else
    let r := readLineAux nl limit [] [] st.stream
    (some r.1, ⟨r.2.1, r.2.2⟩)

/-- Lines produced by exhaustively iterating `StdinIterable.__next__`.
`fuel` bounds the number of `next` calls; `stream.length + 1` always
suffices (each call either consumes a byte or flags end-of-stream). -/
def stdinLines (nl : List Nat) (limit : Nat) : Nat → StdinState → List (List Nat)
  | 0, _ => []
  | fuel + 1, st =>
    let r := stdinNext nl limit st
    match r.1 with
    | none => []
    | some b => b :: stdinLines nl limit fuel r.2

/-- Lines produced by exhaustively iterating
`AutoInputFileIterable.__next__`, fuelled like `stdinLines`. -/
def fileLines (nl : List Nat) (limit : Nat) : Nat → AutoFileState → List (List Nat)
  | 0, _ => []
  | fuel + 1, st =>
    let r := autoNext nl limit st
    match r.1 with
    | none => []
    | some b => b :: fileLines nl limit fuel r.2

/-- Reference description of one delimiter-terminated chunk: accumulate
bytes until the rolling suffix equals the delimiter.  Returns the full
(untruncated) chunk including the delimiter, the remaining stream, and
whether the stream ended before a delimiter was found. -/
def chunk1 (nl : List Nat) : List Nat → List Nat → List Nat × List Nat × Bool
  | acc, [] => (acc, [], true)
  | acc, x :: rest =>
    if nl.isSuffixOf (acc ++ [x]) then (acc ++ [x], rest, false)
    else chunk1 nl (acc ++ [x]) rest

/-- Reference chunking of a whole stream: the delimiter-terminated chunks
in order, and the residue after the last delimiter (empty when the stream
ends exactly at a delimiter).  Fuelled; `stream.length + 1` suffices. -/
def chunksAll (nl : List Nat) : Nat → List Nat → List (List Nat) × List Nat
  | 0, s => ([], s)
  | fuel + 1, s =>
    let r := chunk1 nl [] s
    if r.2.2 then ([], r.1)
    else
      let p := chunksAll nl fuel r.2.1
      (r.1 :: p.1, p.2)

/-- `Grep.LineParsingData.next_line` post-processing of one raw line
(src/grep.py lines 731-743): strip the line ending if present and compute
the new `overflow_detected` value, then strip a trailing CR when the
ending starts with LF.  Returns `(line, overflow_detected)`. -/
def nextLineStep (nl : List Nat) (raw : List Nat) (eof : Bool) : List Nat × Bool :=
  let p : List Nat × Bool :=
    if nl.isSuffixOf raw then (raw.take (raw.length - nl.length), false)
    else (raw, !eof)
  if List.isPrefixOf [10] nl ∧ List.isSuffixOf [13] p.1 then
    (p.1.take (p.1.length - 1), p.2)
  else p

/-- Python `bytes.find` returning the first index of `pat` in `hay`
(`none` for `-1`). -/
def bytesFind (hay pat : List Nat) : Option Nat :=
  if pat.isPrefixOf hay then some 0
  else
    match hay with
    | [] => none
    | _ :: t =>
      match bytesFind t pat with
      | some i => some (i + 1)
      | none => none

/-- Spans of the leftmost non-overlapping occurrences of the literal
byte string `pat` in `hay`, offsets counted from `base`.  For a non-empty
metacharacter-free pattern this is exactly what `re.finditer` yields, and
also exactly the successive `find(pattern, loc + len(pattern))` loop of
`Grep._parse_line` (src/grep.py lines 857-859). -/
def reFindSkip (pat : List Nat) : List Nat → Nat → Nat → List (Nat × Nat)
  | [], _, _ => []
  | x :: t, base, 0 =>
    if pat ≠ [] ∧ pat.isPrefixOf (x :: t) then
      (base, base + pat.length) :: reFindSkip pat t (base + 1) (pat.length - 1)
    else reFindSkip pat t (base + 1) 0
  | _ :: t, base, s + 1 => reFindSkip pat t (base + 1) s

/-- All non-overlapping leftmost occurrence spans of `pat` in `hay`. -/
def reFinditerLit (pat hay : List Nat) : List (Nat × Nat) := reFindSkip pat hay 0 0

/-- The configuration fields of `Grep` that `_parse_line` consults in
fixed-strings mode (`invert_match`, color enablement, `ignore_case`). -/
structure FCfg where
  invert : Bool
  color : Bool
  ignoreCase : Bool
  deriving DecidableEq, Repr

/-- `Grep._init_line_parsing_data` pattern preparation for the
fixed-strings dialect with no word/line anchor (src/grep.py lines
804-807): lowercase the pattern when `ignore_case`. -/
def prepFixed (ignoreCase : Bool) (p : List Nat) : List Nat :=
  if ignoreCase then p.map pyLower else p

/-- The fixed-strings branch of `Grep._parse_line` (src/grep.py lines
851-865): walk the pattern list threading `print_line` and the
highlight spans applied to the formatted line.  A found pattern sets
`print_line = not invert`; with color enabled and `print_line` true every
occurrence is highlighted and scanning continues, otherwise the pattern
loop breaks; a missing pattern sets `print_line = True` under invert. -/
def parseFixedGo (cfg : FCfg) (line : List Nat) :
    List (List Nat) → Bool → List (Nat × Nat) → Bool × List (Nat × Nat)
  | [], pl, spans => (pl, spans)
  | p :: rest, pl, spans =>
    if (bytesFind line p).isSome then
      let pl2 := !cfg.invert
      if cfg.color ∧ pl2 then
        parseFixedGo cfg line rest pl2 (spans ++ reFinditerLit p line)
      else (pl2, spans)
    else
      if cfg.invert then parseFixedGo cfg line rest true spans
      else parseFixedGo cfg line rest pl spans

/-- `Grep._parse_line` in fixed-strings mode: returns whether the line is
printed and the spans highlighted on it. -/
def parseFixed (cfg : FCfg) (pats : List (List Nat)) (line : List Nat) :
    Bool × List (Nat × Nat) :=
  parseFixedGo cfg line pats false []

/-- The fields of `Grep.LineParsingData` mutated by the per-line loop. -/
structure LPD where
  lineIdx : Nat
  overflowDetected : Bool
  binaryDetected : Bool
  numMatches : Nat
  deriving DecidableEq, Repr

/-- One output record of the engine: a printed matching line (with the
line number `match_found` would print) or the end-of-file status line. -/
inductive GrepOut where
  | line (num : Nat) (text : List Nat)
  | summary (binaryMatched : Bool) (overflow : Bool)
  deriving DecidableEq, Repr

/-- The per-file loop of `Grep.execute` in fixed-strings mode
(src/grep.py lines 710-770 and 917-919): `next_line` (increment
`line_idx`, pull a raw line, strip the ending, update
`overflow_detected`/`binary_detected`, lowercase the decoded copy when
`ignore_case`), then `_parse_line`, then `match_found` (prints
`line_idx+1` and the formatted text when the line is not binary); at
`StopIteration` the status line is printed when binary content matched or
`overflow_detected` is still set.  `fuel` bounds the number of `next`
calls. -/
def fileLoop (cfg : FCfg) (pats : List (List Nat)) (nl : List Nat) (limit : Nat) :
    Nat → AutoFileState → LPD → List GrepOut
  | 0, _, _ => []
  | fuel + 1, fst, st =>
    let st1 : LPD := { st with lineIdx := st.lineIdx + 1 }
    let r := autoNext nl limit fst
    match r.1 with
    | none =>
      if (st1.binaryDetected ∧ 0 < st1.numMatches) ∨ st1.overflowDetected then
        [GrepOut.summary (st1.binaryDetected && decide (0 < st1.numMatches)) st1.overflowDetected]
      else []
    | some raw =>
      let eof := !r.2.fpOpen
      let lo := nextLineStep nl raw eof
      let ok := asciiOk lo.1
      let strLine := if ok ∧ cfg.ignoreCase then lo.1.map pyLower else lo.1
      let st2 : LPD := { st1 with overflowDetected := lo.2,
                                  binaryDetected := st1.binaryDetected || !ok }
      let pr := parseFixed cfg pats lo.1
      let st3 : LPD := if pr.1 then { st2 with numMatches := st2.numMatches + 1 } else st2
      (if pr.1 ∧ ¬st2.binaryDetected then [GrepOut.line (st2.lineIdx + 1) strLine] else [])
        ++ fileLoop cfg pats nl limit fuel r.2 st3

/-- One whole-file run of `Grep.execute` in fixed-strings mode with the
default `\n` delimiter and the source byte cap: pattern preparation from
`_init_line_parsing_data` followed by the per-file loop started on a
freshly opened file (`set_file` zeroes `line_idx`/`num_matches`). -/
def grepFixedRun (cfg : FCfg) (rawPats : List (List Nat)) (stream : List Nat)
    (fuel : Nat) : List GrepOut :=
  fileLoop cfg (rawPats.map (prepFixed cfg.ignoreCase)) [10] LINE_BYTE_LIMIT fuel
    ⟨stream, true⟩ ⟨0, false, false, 0⟩

/-- A regular-expression pattern as `_parse_line` sees it, restricted to
the fragment the claims exercise: `lit p` is a metacharacter-free pattern
(which `re` matches as the literal byte string `p`), `bad` is a
syntactically invalid pattern, on which `re.finditer`/`re.fullmatch`
raise `re.error` every time they are called (no compilation happens
beforehand anywhere in src/grep.py). -/
inductive RPat where
  | lit (p : List Nat)
  | bad
  deriving DecidableEq, Repr

/-- The configuration fields `_parse_line` consults in regex mode. -/
structure RCfg where
  invert : Bool
  color : Bool
  ignoreCase : Bool
  lineRegexp : Bool
  deriving DecidableEq, Repr

/-- `re.finditer(pattern, line, flags)` for a literal pattern, with the
`re.IGNORECASE` flag modelled by case-folding both sides. -/
def reFinditerFlag (ignoreCase : Bool) (p line : List Nat) : List (Nat × Nat) :=
  if ignoreCase then reFinditerLit (p.map pyLower) (line.map pyLower)
  else reFinditerLit p line

/-- `re.fullmatch(pattern, line, flags)` for a literal pattern. -/
def reFullmatchFlag (ignoreCase : Bool) (p line : List Nat) : Bool :=
  if ignoreCase then line.map pyLower = p.map pyLower else line = p

/-- The regular-expression branch of `Grep._parse_line` (src/grep.py
lines 866-896), threading `print_line` and the applied highlight spans
through the pattern loop; an invalid pattern raises (`Except.error`) at
the moment `re` is invoked on it.  Mirrors the source control flow:
`fullmatch` when `line_regexp`, else `finditer` over all matches (with
color) or stopping at the first (without); `print_line = True` on a
non-matching pattern under invert; the loop breaks when `print_line` is
set and color is off or invert is on. -/
def parseRegexGo (cfg : RCfg) (line : List Nat) :
    List RPat → Bool → List (Nat × Nat) → Except Unit (Bool × List (Nat × Nat))
  | [], pl, spans => Except.ok (pl, spans)
  | RPat.bad :: _, _, _ => Except.error ()
  | RPat.lit p :: rest, pl, spans =>
    if cfg.lineRegexp then
      let m := reFullmatchFlag cfg.ignoreCase p line
      let pl2 := if m then !cfg.invert else (if cfg.invert then true else pl)
      let spans2 := if m ∧ cfg.color then spans ++ [(0, line.length)] else spans
      if pl2 ∧ (¬cfg.color ∨ cfg.invert) then Except.ok (pl2, spans2)
      else parseRegexGo cfg line rest pl2 spans2
    else
      let ms := reFinditerFlag cfg.ignoreCase p line
      let lineMatches := ms ≠ []
      let pl2 := if lineMatches then !cfg.invert else (if cfg.invert then true else pl)
      let spans2 := if lineMatches ∧ cfg.color then spans ++ ms else spans
      if pl2 ∧ (¬cfg.color ∨ cfg.invert) then Except.ok (pl2, spans2)
      else parseRegexGo cfg line rest pl2 spans2

/-- `Grep._parse_line` in regex mode: whether the line is printed and the
highlight spans applied to it, or the `re.error` escape. -/
def parseRegex (cfg : RCfg) (pats : List RPat) (line : List Nat) :
    Except Unit (Bool × List (Nat × Nat)) :=
  parseRegexGo cfg line pats false []

/-- The line-processing part of `Grep.execute` in regex mode over a list
of already-split lines: each line goes through `_parse_line`; a raised
`re.error` aborts the run, keeping the output printed so far.  Returns
the printed lines in order and whether the run aborted with an error. -/
def executeLines (cfg : RCfg) (pats : List RPat) :
    List (List Nat) → List (List Nat) × Bool
  | [] => ([], false)
  | l :: rest =>
    match parseRegex cfg pats l with
    | Except.error _ => ([], true)
    | Except.ok pr =>
      let p := executeLines cfg pats rest
      ((if pr.1 then [l] else []) ++ p.1, p.2)

/-- The default regex-mode configuration of a plain
`grep.py PATTERN FILE` run: basic-regex dialect, no invert, color off,
case sensitive, no line anchor. -/
def defaultRCfg : RCfg := ⟨false, false, false, false⟩

/-- Whether the `_parse_line` pattern scan of one line reaches an invalid
pattern under `defaultRCfg`: scanning stops at the first literal pattern
that matches, so a `bad` entry is reached iff no earlier literal
matches. -/
def scanReachesBad : List RPat → List Nat → Bool
  | [], _ => false
  | RPat.bad :: _, _ => true
  | RPat.lit p :: rest, l =>
    if reFinditerLit p l ≠ [] then false else scanReachesBad rest l

/-- Python `pattern.split(sep)` for a two-character separator `[a, b]`:
split at the leftmost non-overlapping occurrences. -/
def pySplit2 (a b : Nat) : List Nat → List (List Nat)
  | [] => [[]]
  | [x] => [[x]]
  | x :: y :: rest =>
    if x = a ∧ y = b then [] :: pySplit2 a b rest
    else
      match pySplit2 a b (y :: rest) with
      | [] => [[x]]
      | p :: ps => (x :: p) :: ps

/-- Python `piece.replace(c, rep)` for a single-character target `c`. -/
def pyReplace1 (c : Nat) (rep : List Nat) : List Nat → List Nat
  | [] => []
  | x :: r => (if x = c then rep else [x]) ++ pyReplace1 c rep r

/-- Python `ch.join(pieces)` for a single-character separator. -/
def pyJoin (c : Nat) : List (List Nat) → List Nat
  | [] => []
  | [p] => p
  | p :: ps => p ++ c :: pyJoin c ps

/-- One iteration of the loop in `_pattern_escape_invert` (src/grep.py
lines 451-464) for the metacharacter `c`: split on the escaped character
`\c`, within each piece replace bare `c` by `\c`, and re-join the pieces
with bare `c` — so escaped occurrences become unescaped and vice versa.
`92` is the backslash. -/
def escFlip (c : Nat) (p : List Nat) : List Nat :=
  pyJoin c ((pySplit2 92 c p).map (pyReplace1 c [92, c]))

/-- `_pattern_escape_invert(pattern, chars)` (src/grep.py lines
451-464): fold `escFlip` over the characters in order. -/
def pattern_escape_invert (p : List Nat) (chars : List Nat) : List Nat :=
  chars.foldl (fun acc c => escFlip c acc) p

/-- The call made by `_init_line_parsing_data` for the basic-regex
dialect (src/grep.py line 811): invert escaping of `? + { } | ( )`
(character codes 63 43 123 125 124 40 41). -/
def escInvertAll (p : List Nat) : List Nat :=
  pattern_escape_invert p [63, 43, 123, 125, 124, 40, 41]

/-- Single left-to-right scanner equivalent to `escFlip c` (proved below
as `escFlip_eq_tog`): `\c` becomes `c`, bare `c` becomes `\c`, other
characters (including a backslash not followed by `c`) pass through. -/
def tog (c : Nat) : List Nat → List Nat
  | [] => []
  | [x] => if x = 92 then [92] else if x = c then [92, c] else [x]
  | x :: y :: rest =>
    if x = 92 then
      (if y = c then c :: tog c rest else 92 :: tog c (y :: rest))
    else if x = c then 92 :: c :: tog c (y :: rest)
    else x :: tog c (y :: rest)

/-- No two consecutive backslashes occur in the string. -/
def noBB : List Nat → Bool
  | [] => true
  | [_] => true
  | x :: y :: r => (decide ¬(x = 92 ∧ y = 92)) && noBB (y :: r)

/-- One style setting applied to an `AnsiString`: in the source each
`apply_formatting` call builds a fresh `Settings` object whose identity
(not just its string value) is what removal matches on; `uid` models that
object identity and `codes` its `_str` (the joined ANSI codes). -/
structure SItem where
  uid : Nat
  codes : List Nat
  deriving DecidableEq, Repr

/-- The state of an `AnsiString` (src/grep.py lines 286-292): the base
string and `_color_settings`, a map from string index to the settings
applied and removed there, modelled as an association list in insertion
order (Python dict). -/
structure AnsiString where
  s : List Nat
  colorSettings : List (Nat × List SItem × List SItem)
  deriving DecidableEq, Repr

/-- `AnsiString._insert_settings_to_dict` (src/grep.py lines 309-314). -/
def insertSettings (d : List (Nat × List SItem × List SItem)) (idx : Nat)
    (apply : Bool) (it : SItem) : List (Nat × List SItem × List SItem) :=
  match d with
  | [] => [(idx, (if apply then [it] else []), (if apply then [] else [it]))]
  | (k, ap, rm) :: rest =>
    if k = idx then
      (k, (if apply then ap ++ [it] else ap), (if apply then rm else rm ++ [it])) :: rest
    else (k, ap, rm) :: insertSettings rest idx apply it

/-- `AnsiString.apply_formatting` (src/grep.py lines 319-337): record an
apply event at `start` and, when a length is given, a remove event for
the same settings instance at `start + length`. -/
def applyFormatting (a : AnsiString) (it : SItem) (start : Nat) (len : Option Nat) :
    AnsiString :=
  let d1 := insertSettings a.colorSettings start true it
  match len with
  | none => { a with colorSettings := d1 }
  | some n => { a with colorSettings := insertSettings d1 (start + n) false it }

/-- Insert an entry into a key-sorted association list. -/
def insertByKey (x : Nat × List SItem × List SItem) :
    List (Nat × List SItem × List SItem) → List (Nat × List SItem × List SItem)
  | [] => [x]
  | y :: r => if x.1 ≤ y.1 then x :: y :: r else y :: insertByKey x r

/-- `sorted(settings_dict)` iteration order: the entries by ascending
index. -/
def sortByKey (d : List (Nat × List SItem × List SItem)) :
    List (Nat × List SItem × List SItem) :=
  d.foldr insertByKey []

/-- `AnsiString.ANSI_ESCAPE_FORMAT.format(cmd)`: ESC `[` cmd `m`. -/
def escSeq (cmd : List Nat) : List Nat := 27 :: 91 :: cmd ++ [109]

/-- The rendering loop of `AnsiString.__format__` (src/grep.py lines
403-434): visit entries in ascending index order, stop at indices past
the end of the string, emit the literal text since the previous index,
remove then apply settings (removal is by instance, `list.remove`),
prefix a reset code when removals met pending settings, and finally emit
the tail and a clear code if settings remain active.  `48` is the
character `0` (the RESET value), `59` is `;`. -/
def renderGo (s : List Nat) :
    List (Nat × List SItem × List SItem) → List SItem → Nat → List Nat → List Nat
  | [], cur, lastIdx, out =>
    out ++ s.drop lastIdx ++ (if cur ≠ [] then escSeq [] else [])
  | (idx, ap, rm) :: rest, cur, lastIdx, out =>
    if s.length ≤ idx then
      out ++ s.drop lastIdx ++ (if cur ≠ [] then escSeq [] else [])
    else
      let out1 := out ++ (s.drop lastIdx).take (idx - lastIdx)
      let cur1 := rm.foldl (fun c it => c.erase it) cur
      let cur2 := cur1 ++ ap
      let strs := cur2.map SItem.codes
      let strs1 := if rm ≠ [] ∧ strs ≠ [] then [48] :: strs else strs
      renderGo s rest cur2 idx (out1 ++ escSeq (pyJoin 59 strs1))

/-- `AnsiString.__format__` (src/grep.py lines 359-434) with the format
spec abstracted to an optional already-parsed settings instance: with no
spec and no recorded settings return the base string unchanged,
otherwise insert the spec (if any) at index 0 and run the rendering
loop. -/
def ansiFormat (a : AnsiString) (spec : Option SItem) : List Nat :=
  if spec.isNone ∧ a.colorSettings.isEmpty then a.s
  else
    let d := match spec with
      | none => a.colorSettings
      | some it => insertSettings a.colorSettings 0 true it
    renderGo a.s (sortByKey d) [] 0 []
/-- Folding the scanner over a character list, in order. -/
def foldTog (cs : List Nat) (l : List Nat) : List Nat :=
  cs.foldl (fun p c => tog c p) l
/-- Whether `_parse_line` selects (prints) a line under the default regex
configuration; `false` when the scan raises instead. -/
def lineSelected (pats : List RPat) (l : List Nat) : Bool :=
  match parseRegex defaultRCfg pats l with
  | Except.ok pr => pr.1
  | Except.error _ => false
/-! ### Helper lemmas about the byte scanner -/

theorem lastN_eq_iff_suffix (nl acc : List Nat) :
    (lastN nl.length acc = nl) ↔ nl.isSuffixOf acc := by
  rw [List.isSuffixOf_iff_suffix, List.suffix_iff_eq_drop, lastN]
  exact eq_comm

theorem lastN_roll (n : Nat) (acc : List Nat) (x : Nat) :
    lastN n (lastN n acc ++ [x]) = lastN n (acc ++ [x]) := by
  rcases Nat.eq_zero_or_pos n with h0 | hpos
  · subst h0
    simp [lastN]
  · unfold lastN
    rcases le_or_lt acc.length n with hle | hlt
    · rw [Nat.sub_eq_zero_of_le hle, List.drop_zero]
    · have hlen : (acc.drop (acc.length - n)).length = n := by
        rw [List.length_drop]; omega
      rw [List.length_append, hlen, List.length_append]
      simp only [List.length_singleton]
      have h1 : n + 1 - n = 1 := by omega
      have h2 : acc.length + 1 - n = (acc.length - n) + 1 := by omega
      rw [h1, h2]
      rw [List.drop_append_of_le_length (by omega), List.drop_drop,
        List.drop_append_of_le_length (by omega)]

theorem take_snoc (limit : Nat) (acc : List Nat) (x : Nat) :
    (acc ++ [x]).take limit =
      if acc.length < limit then acc.take limit ++ [x] else acc.take limit := by
  rw [List.take_append_eq_append_take]
  by_cases h : acc.length < limit
  · have h1 : 1 ≤ limit - acc.length := by omega
    simp [h, List.take_of_length_le (by simp; omega : ([x] : List Nat).length ≤ limit - acc.length)]
  · have h1 : limit - acc.length = 0 := by omega
    simp [h, h1]

theorem take_len_lt (limit : Nat) (acc : List Nat) :
    ((acc.take limit).length < limit) ↔ acc.length < limit := by
  rw [List.length_take]
  omega

/-- The byte-reading loop computes exactly the next reference chunk,
truncated to the byte cap. -/
theorem readLine_chunk (nl : List Nat) (limit : Nat) :
    ∀ (s acc : List Nat), ¬ nl.isSuffixOf acc →
      readLineAux nl limit (acc.take limit) (lastN nl.length acc) s =
        ((chunk1 nl acc s).1.take limit, (chunk1 nl acc s).2.1, (chunk1 nl acc s).2.2) := by
  intro s
  induction s with
  | nil =>
    intro acc hsuf
    have he : lastN nl.length acc ≠ nl := by
      rw [Ne, lastN_eq_iff_suffix]
      simpa using hsuf
    rw [readLineAux, chunk1]
    simp [he]
  | cons x rest ih =>
    intro acc hsuf
    have he : lastN nl.length acc ≠ nl := by
      rw [Ne, lastN_eq_iff_suffix]
      simpa using hsuf
    rw [readLineAux, chunk1]
    simp only [he, if_false]
    have hb : (if (acc.take limit).length < limit then acc.take limit ++ [x]
        else acc.take limit) = (acc ++ [x]).take limit := by
      rw [take_snoc]
      by_cases h : acc.length < limit
      · simp [h, (take_len_lt limit acc).mpr h]
      · have h2 : ¬ (acc.take limit).length < limit := by
          rw [take_len_lt]; exact h
        simp [h, h2]
    rw [hb, lastN_roll]
    by_cases hsx : nl.isSuffixOf (acc ++ [x])
    · simp only [hsx, if_true]
      have he2 : lastN nl.length (acc ++ [x]) = nl := by
        rw [lastN_eq_iff_suffix]; exact hsx
      rw [readLineAux.eq_def]
      simp [he2]
    · simp only [hsx, if_false]
      exact ih (acc ++ [x]) hsx

theorem chunk1_eof (nl : List Nat) :
    ∀ (s acc : List Nat), (chunk1 nl acc s).2.2 = true →
      (chunk1 nl acc s).1 = acc ++ s ∧ (chunk1 nl acc s).2.1 = [] := by
  intro s
  induction s with
  | nil => intro acc _; rw [chunk1]; simp
  | cons x rest ih =>
    intro acc h
    rw [chunk1] at h ⊢
    by_cases hsx : nl.isSuffixOf (acc ++ [x])
    · simp [hsx] at h
    · simp only [hsx] at h ⊢
      simp only [if_false, Bool.false_eq_true] at h ⊢
      rcases ih (acc ++ [x]) h with ⟨h1, h2⟩
      refine ⟨?_, h2⟩
      rw [h1]
      simp

theorem chunk1_progress (nl : List Nat) :
    ∀ (s acc : List Nat), (chunk1 nl acc s).2.2 = false →
      (chunk1 nl acc s).2.1.length < s.length := by
  intro s
  induction s with
  | nil => intro acc h; rw [chunk1] at h; simp at h
  | cons x rest ih =>
    intro acc h
    rw [chunk1] at h ⊢
    by_cases hsx : nl.isSuffixOf (acc ++ [x])
    · simp [hsx]
    · simp only [hsx, Bool.false_eq_true, if_false] at h ⊢
      have := ih (acc ++ [x]) h
      simp only [List.length_cons]
      omega

theorem chunk1_found_ne_nil (nl : List Nat) :
    ∀ (s acc : List Nat), (chunk1 nl acc s).2.2 = false → (chunk1 nl acc s).1 ≠ [] := by
  intro s
  induction s with
  | nil => intro acc h; rw [chunk1] at h; simp at h
  | cons x rest ih =>
    intro acc h
    rw [chunk1] at h ⊢
    by_cases hsx : nl.isSuffixOf (acc ++ [x])
    · simp [hsx]
    · simp only [hsx, Bool.false_eq_true, if_false] at h ⊢
      exact ih (acc ++ [x]) h

theorem suffix_one (d x : Nat) (l : List Nat) :
    List.isSuffixOf [d] (l ++ [x]) ↔ x = d := by
  rw [List.isSuffixOf_iff_suffix, List.suffix_iff_eq_drop]
  simp only [List.length_append, List.length_singleton]
  have h1 : l.length + 1 - 1 = l.length := by omega
  rw [h1, List.drop_left]
  constructor
  · intro h; injection h with h2 _; exact h2.symm
  · intro h; rw [h]

/-- Reference chunking of `replicate k c ++ d :: rest` for `c ≠ d`:
the first chunk is everything through the first delimiter. -/
theorem chunk1_repl (c d : Nat) (hcd : c ≠ d) :
    ∀ (k : Nat) (acc rest : List Nat),
      chunk1 [d] acc (List.replicate k c ++ d :: rest) =
        (acc ++ List.replicate k c ++ [d], rest, false) := by
  intro k
  induction k with
  | zero =>
    intro acc rest
    simp only [List.replicate_zero, List.nil_append]
    rw [chunk1]
    simp [suffix_one]
  | succ k ih =>
    intro acc rest
    rw [List.replicate_succ, List.cons_append, chunk1]
    have hns : ¬ List.isSuffixOf [d] (acc ++ [c]) := by
      rw [suffix_one]; exact hcd
    simp only [hns, if_false]
    rw [ih (acc ++ [c]) rest]
    simp
theorem repl_no_suffix (d c n : Nat) (hcd : c ≠ d) (hn : n ≠ 0) :
    ¬ List.isSuffixOf [d] (List.replicate n c) := by
  obtain ⟨m, rfl⟩ : ∃ m, n = m + 1 := ⟨n - 1, by omega⟩
  rw [List.replicate_succ', suffix_one]
  exact hcd

theorem bytesFind_repl_none (c p n : Nat) (hcp : c ≠ p) :
    bytesFind (List.replicate n c) [p] = none := by
  induction n with
  | zero => rfl
  | succ n ih =>
    rw [List.replicate_succ, bytesFind.eq_def]
    have hpre : (List.isPrefixOf [p] (c :: List.replicate n c)) = false := by
      simp [List.isPrefixOf]
      omega
    rw [hpre]
    simp [ih]

theorem asciiOk_repl (c n : Nat) (hc : c < 128) : asciiOk (List.replicate n c) = true := by
  simp [asciiOk, List.all_eq_true, List.mem_replicate]
  exact Or.inr hc

/-- Unfold one `AutoInputFileIterable.__next__` call from a computed scan
result (non-empty accumulator case). -/
theorem autoNext_of_scan (nl : List Nat) (limit : Nat) (st : AutoFileState)
    (b rest : List Nat) (flag : Bool) (hOpen : st.fpOpen = true)
    (hscan : readLineAux nl limit [] [] st.stream = (b, rest, flag)) (hb : b ≠ []) :
    autoNext nl limit st = (some b, ⟨rest, !flag⟩) := by
  unfold autoNext
  rw [hOpen, hscan]
  simp [hb]

/-- Unfold one `AutoInputFileIterable.__next__` call from a computed scan
result (empty accumulator: `StopIteration`). -/
theorem autoNext_of_scan_nil (nl : List Nat) (limit : Nat) (st : AutoFileState)
    (rest : List Nat) (flag : Bool) (hOpen : st.fpOpen = true)
    (hscan : readLineAux nl limit [] [] st.stream = ([], rest, flag)) :
    autoNext nl limit st = (none, ⟨rest, false⟩) := by
  unfold autoNext
  rw [hOpen, hscan]
  simp

/-- Unfold one `StdinIterable.__next__` call from a computed scan
result. -/
theorem stdinNext_of_scan (nl : List Nat) (limit : Nat) (st : StdinState)
    (b rest : List Nat) (flag : Bool) (hEof : st.eofDetected = false)
    (hscan : readLineAux nl limit [] [] st.stream = (b, rest, flag)) :
    stdinNext nl limit st = (some b, ⟨rest, flag⟩) := by
  unfold stdinNext
  rw [hEof, hscan]
  simp
/-- The scan of a stream starting with `k` copies of `c` and then the
delimiter `10`: the first chunk is found, capped at the byte limit. -/
theorem scan_repl (k c : Nat) (rest : List Nat) (hcd : c ≠ 10)
    (hL : LINE_BYTE_LIMIT ≤ k) :
    readLineAux [10] LINE_BYTE_LIMIT [] [] (List.replicate k c ++ 10 :: rest) =
      (List.replicate LINE_BYTE_LIMIT c, rest, false) := by
  have hscan := readLine_chunk [10] LINE_BYTE_LIMIT (List.replicate k c ++ 10 :: rest) []
    (by decide)
  rw [chunk1_repl c 10 hcd k [] rest] at hscan
  simp only [List.nil_append, List.take_nil] at hscan
  have hlast : lastN ([10] : List Nat).length ([] : List Nat) = [] := by simp [lastN]
  rw [hlast] at hscan
  have htake : (List.replicate k c ++ [10]).take LINE_BYTE_LIMIT =
      List.replicate LINE_BYTE_LIMIT c := by
    rw [List.take_append_eq_append_take, List.take_replicate, List.length_replicate]
    have h0 : LINE_BYTE_LIMIT - k = 0 := by omega
    rw [h0, Nat.min_eq_left hL]
    simp
  rw [htake] at hscan
  exact hscan
/-- Reading from a stream whose first line is `k` copies of `c` followed
by the delimiter: the returned content is capped, the delimiter is
consumed, the file stays open. -/
theorem autoNext_repl (k c : Nat) (rest : List Nat) (hcd : c ≠ 10)
    (hL : LINE_BYTE_LIMIT ≤ k) :
    autoNext [10] LINE_BYTE_LIMIT ⟨List.replicate k c ++ 10 :: rest, true⟩ =
      (some (List.replicate LINE_BYTE_LIMIT c), ⟨rest, true⟩) := by
  have hb : List.replicate LINE_BYTE_LIMIT c ≠ [] := by
    intro h
    have hl := congrArg List.length h
    rw [List.length_replicate] at hl
    norm_num [LINE_BYTE_LIMIT] at hl
  have h := autoNext_of_scan [10] LINE_BYTE_LIMIT ⟨List.replicate k c ++ 10 :: rest, true⟩
    (List.replicate LINE_BYTE_LIMIT c) rest false rfl (scan_repl k c rest hcd hL) hb
  simpa using h

theorem nextLineStep_repl (c n : Nat) (hc10 : c ≠ 10) (hc13 : c ≠ 13) (hn : n ≠ 0)
    (eof : Bool) :
    nextLineStep [10] (List.replicate n c) eof = (List.replicate n c, !eof) := by
  have h1 : ¬ List.isSuffixOf [10] (List.replicate n c) := repl_no_suffix 10 c n hc10 hn
  have h2 : ¬ List.isSuffixOf [13] (List.replicate n c) := repl_no_suffix 13 c n hc13 hn
  unfold nextLineStep
  simp [h1, h2]

/-- C6: a 200000-byte line under the 131072-byte cap with the delimiter
only at the very end is returned exactly once: the single `next` call
yields exactly the first 131072 bytes of the line with the file left
open, `next_line` then strips nothing and records `overflow = true`
(since the source is not yet at EOF), and the following `next` call
raises `StopIteration`. -/
theorem c6_overflow_truncation :
    autoNext [10] LINE_BYTE_LIMIT ⟨List.replicate 200000 97 ++ 10 :: [], true⟩ =
      (some (List.replicate 131072 97), ⟨[], true⟩)
    ∧ (List.replicate 200000 97).take LINE_BYTE_LIMIT = List.replicate 131072 97
    ∧ nextLineStep [10] (List.replicate 131072 97) false = (List.replicate 131072 97, true)
    ∧ autoNext [10] LINE_BYTE_LIMIT ⟨[], true⟩ = (none, ⟨[], false⟩) := by
  refine ⟨?_, ?_, ?_, ?_⟩
  · have h := autoNext_repl 200000 97 [] (by decide) (by norm_num [LINE_BYTE_LIMIT])
    rw [h]
    rfl
  · rw [List.take_replicate, Nat.min_eq_left (by norm_num [LINE_BYTE_LIMIT])]
    rfl
  · have h := nextLineStep_repl 97 131072 (by decide) (by decide) (by norm_num) false
    rw [h]
    rfl
  · have h := autoNext_of_scan_nil [10] LINE_BYTE_LIMIT ⟨[], true⟩ [] true rfl (by rfl)
    rw [h]

/-- One `fileLoop` iteration in which the read line is text, does not
match, and prints nothing: only the `LineParsingData` state advances. -/
theorem fileLoop_step_noprint (cfg : FCfg) (pats : List (List Nat)) (nl : List Nat)
    (limit fuel : Nat) (fst fst2 : AutoFileState) (st : LPD) (raw line : List Nat)
    (ovf : Bool)
    (h1 : autoNext nl limit fst = (some raw, fst2))
    (h2 : nextLineStep nl raw (!fst2.fpOpen) = (line, ovf))
    (h3 : asciiOk line = true)
    (h4 : parseFixed cfg pats line = (false, [])) :
    fileLoop cfg pats nl limit (fuel + 1) fst st =
      fileLoop cfg pats nl limit fuel fst2
        ⟨st.lineIdx + 1, ovf, st.binaryDetected, st.numMatches⟩ := by
  rw [fileLoop, h1]
  simp only [h2, h3, h4]
  simp

/-- Counterexample to C5: a source whose first line overflows the cap
(131073 bytes before its delimiter) followed by a normal
delimiter-terminated line `b\n`.  The later normal line resets
`overflow_detected` to `False` (src/grep.py line 734), so end-of-source
emits no overflow summary at all: the run output is empty. -/
theorem c5_overflow_forgotten_counterexample :
    fileLoop ⟨false, false, false⟩ [[122]] [10] LINE_BYTE_LIMIT 4
      ⟨List.replicate 131073 97 ++ 10 :: 98 :: 10 :: [], true⟩ ⟨0, false, false, 0⟩ = [] := by
  have h1 := autoNext_repl 131073 97 [98, 10] (by decide) (by norm_num [LINE_BYTE_LIMIT])
  have h2 : nextLineStep [10] (List.replicate LINE_BYTE_LIMIT 97)
      (!(⟨[98, 10], true⟩ : AutoFileState).fpOpen) = (List.replicate LINE_BYTE_LIMIT 97, true) :=
    nextLineStep_repl 97 LINE_BYTE_LIMIT (by decide) (by decide)
      (by norm_num [LINE_BYTE_LIMIT]) false
  have h3 := asciiOk_repl 97 LINE_BYTE_LIMIT (by norm_num)
  have h4 : parseFixed ⟨false, false, false⟩ [[122]] (List.replicate LINE_BYTE_LIMIT 97) =
      (false, []) := by
    simp [parseFixed, parseFixedGo, bytesFind_repl_none 97 122 LINE_BYTE_LIMIT (by decide)]
  rw [show (4 : Nat) = 3 + 1 from rfl,
    fileLoop_step_noprint ⟨false, false, false⟩ [[122]] [10] LINE_BYTE_LIMIT 3 _ _ _ _ _ _
      h1 h2 h3 h4]
  decide

/-- Amended C5: the overflow summary is emitted when the *final* line of
the source overflowed — overflow state still set at `StopIteration`. -/
theorem c5_final_line_overflow_summary (k c : Nat) (hk : LINE_BYTE_LIMIT < k)
    (hc10 : c ≠ 10) (hc13 : c ≠ 13) (hc128 : c < 128) (hcz : c ≠ 122) :
    fileLoop ⟨false, false, false⟩ [[122]] [10] LINE_BYTE_LIMIT 3
      ⟨List.replicate k c ++ 10 :: [], true⟩ ⟨0, false, false, 0⟩ =
      [GrepOut.summary false true] := by
  have h1 := autoNext_repl k c [] hc10 (Nat.le_of_lt hk)
  have h2 : nextLineStep [10] (List.replicate LINE_BYTE_LIMIT c)
      (!(⟨[], true⟩ : AutoFileState).fpOpen) = (List.replicate LINE_BYTE_LIMIT c, true) :=
    nextLineStep_repl c LINE_BYTE_LIMIT hc10 hc13 (by norm_num [LINE_BYTE_LIMIT]) false
  have h3 := asciiOk_repl c LINE_BYTE_LIMIT hc128
  have h4 : parseFixed ⟨false, false, false⟩ [[122]] (List.replicate LINE_BYTE_LIMIT c) =
      (false, []) := by
    simp [parseFixed, parseFixedGo, bytesFind_repl_none c 122 LINE_BYTE_LIMIT hcz]
  rw [show (3 : Nat) = 2 + 1 from rfl,
    fileLoop_step_noprint ⟨false, false, false⟩ [[122]] [10] LINE_BYTE_LIMIT 2 _ _ _ _ _ _
      h1 h2 h3 h4]
  decide

/-- Witness for `c5_final_line_overflow_summary` at a 131073-byte line. -/
theorem c5_final_line_overflow_summary_witness :
    (LINE_BYTE_LIMIT < 131073 ∧ (97 : Nat) ≠ 10 ∧ (97 : Nat) ≠ 13 ∧ (97 : Nat) < 128
      ∧ (97 : Nat) ≠ 122) ∧
    fileLoop ⟨false, false, false⟩ [[122]] [10] LINE_BYTE_LIMIT 3
      ⟨List.replicate 131073 97 ++ 10 :: [], true⟩ ⟨0, false, false, 0⟩ =
      [GrepOut.summary false true] :=
  ⟨⟨by norm_num [LINE_BYTE_LIMIT], by decide, by decide, by decide, by decide⟩,
   c5_final_line_overflow_summary 131073 97 (by norm_num [LINE_BYTE_LIMIT]) (by decide)
     (by decide) (by decide) (by decide)⟩

/-- C1: with `ignore_case` and fixed-strings, pattern `foo` against the
line `FOO` produces no output — matching runs against the raw
(un-lowercased) line bytes with a lowercased pattern — although the
case-folded pattern occurs in the case-folded line (so the claimed
iff fails on this input). -/
theorem c1_ignorecase_fixed_code_bug :
    grepFixedRun ⟨false, false, true⟩ [[102, 111, 111]] [70, 79, 79, 10] 3 = []
    ∧ (bytesFind ([70, 79, 79].map pyLower) ([102, 111, 111].map pyLower)).isSome = true :=
  ⟨by decide, by decide⟩

/-- C3: the first line of a source that matches is printed with line
number 2 (`match_found` prints `line_idx + 1` after `next_line` already
made `line_idx` 1-based), not with its 1-based index 1. -/
theorem c3_line_number_off_by_one :
    grepFixedRun ⟨false, false, false⟩ [[104]] [104, 105, 10] 3 =
      [GrepOut.line 2 [104, 105]] := by decide

/-- C2: with `invert` and the regex pattern list `[z, a]`, the line
`apple` is reported (the scan breaks at the first non-matching pattern)
even though pattern `a` matches the line — the claimed
"reported iff no pattern matches" fails. -/
theorem c2_invert_multi_pattern_code_bug :
    parseRegex ⟨true, false, false, false⟩ [RPat.lit [122], RPat.lit [97]]
      [97, 112, 112, 108, 101] = Except.ok (true, [])
    ∧ reFinditerLit [97] [97, 112, 112, 108, 101] ≠ [] :=
  ⟨rfl, by decide⟩

/-- C7: with `invert` and color enabled, patterns `[a, z]` on the line
`apple`: the first pattern matches and applies a highlight span, the
second does not match and triggers printing — so the emitted inverted
line carries a (non-empty) highlight span list. -/
theorem c7_invert_colorized_code_bug :
    parseRegex ⟨true, true, false, false⟩ [RPat.lit [97], RPat.lit [122]]
      [97, 112, 112, 108, 101] = Except.ok (true, [(0, 1)])
    ∧ ([(0, 1)] : List (Nat × Nat)) ≠ [] :=
  ⟨rfl, by decide⟩

/-- C9: rendering an `AnsiString` whose interval map is empty with no
external format spec returns the base string unchanged. -/
theorem c9_empty_map_identity (s : List Nat) : ansiFormat ⟨s, []⟩ none = s := by
  simp [ansiFormat]

/-- Counterexample to C4: with patterns `[a, invalid]` the run over the
lines `[apple, xyz]` first prints `apple` (its scan stops at the matching
pattern `a` before reaching the invalid one) and only then raises
`re.error` while scanning `xyz` — the failure comes after lines were
read and after partial output was produced, not before. -/
theorem c4_lazy_error_counterexample :
    executeLines defaultRCfg [RPat.lit [97], RPat.bad]
      [[97, 112, 112, 108, 101], [120, 121, 122]] = ([[97, 112, 112, 108, 101]], true) := by
  decide

/-- Counterexample to C8: the transform applied twice to the
well-formed escaped pattern backslash-backslash-lparen returns `(`, not
the original string. -/
theorem c8_involution_counterexample :
    escInvertAll (escInvertAll [92, 92, 40]) ≠ [92, 92, 40] := by decide

/-! ### The escape-inversion transform -/

theorem pySplit2_ne_nil (a b : Nat) : ∀ (n : Nat) (l : List Nat), l.length ≤ n →
    pySplit2 a b l ≠ [] := by
  intro n
  induction n with
  | zero =>
    intro l h
    have hl : l = [] := by cases l with
      | nil => rfl
      | cons x t => simp at h
    subst hl
    rw [pySplit2]
    simp
  | succ n ih =>
    intro l hlen
    rcases l with _ | ⟨x, _ | ⟨y, rest⟩⟩
    · rw [pySplit2]; simp
    · rw [pySplit2]; simp
    · rw [pySplit2]
      by_cases hc : x = a ∧ y = b
      · simp [hc]
      · simp only [hc, if_false]
        rcases hsp : pySplit2 a b (y :: rest) with _ | ⟨p, ps⟩
        · simp
        · simp

theorem pyJoin_first_append (c : Nat) (A q : List Nat) (ps : List (List Nat)) :
    pyJoin c ((A ++ q) :: ps) = A ++ pyJoin c (q :: ps) := by
  cases ps <;> simp [pyJoin]

theorem escFlip_nil (c : Nat) : escFlip c [] = [] := rfl

theorem escFlip_one (c x : Nat) : escFlip c [x] = if x = c then [92, c] else [x] := by
  by_cases h : x = c <;> simp [escFlip, pySplit2, pyReplace1, pyJoin, h]

theorem escFlip_esc (c : Nat) (r : List Nat) :
    escFlip c (92 :: c :: r) = c :: escFlip c r := by
  unfold escFlip
  rw [pySplit2]
  simp only [and_self, if_true]
  rcases hsp : pySplit2 92 c r with _ | ⟨p, ps⟩
  · exact absurd hsp (pySplit2_ne_nil 92 c r.length r le_rfl)
  · simp only [hsp, List.map_cons]
    simp [pyJoin, pyReplace1]

theorem escFlip_cons2 (c x y : Nat) (r : List Nat) (h : ¬(x = 92 ∧ y = c)) :
    escFlip c (x :: y :: r) = (if x = c then [92, c] else [x]) ++ escFlip c (y :: r) := by
  unfold escFlip
  rw [pySplit2]
  simp only [h, if_false]
  rcases hsp : pySplit2 92 c (y :: r) with _ | ⟨p, ps⟩
  · exact absurd hsp (pySplit2_ne_nil 92 c (y :: r).length (y :: r) le_rfl)
  · simp only [hsp, List.map_cons]
    have hf : pyReplace1 c [92, c] (x :: p) =
        (if x = c then [92, c] else [x]) ++ pyReplace1 c [92, c] p := by
      rw [pyReplace1]
    rw [hf, pyJoin_first_append, ← List.map_cons]

theorem tog_nil (c : Nat) : tog c [] = [] := rfl

theorem tog_single (c x : Nat) :
    tog c [x] = if x = 92 then [92] else if x = c then [92, c] else [x] := by
  rw [tog]

theorem tog_esc (c : Nat) (r : List Nat) : tog c (92 :: c :: r) = c :: tog c r := by
  simp [tog]

theorem tog_bs (c y : Nat) (h : y ≠ c) (r : List Nat) :
    tog c (92 :: y :: r) = 92 :: tog c (y :: r) := by
  simp [tog, h]

theorem tog_head (c x : Nat) (h92 : x ≠ 92) (hc : x ≠ c) :
    ∀ r, tog c (x :: r) = x :: tog c r := by
  intro r
  cases r with
  | nil => simp [tog, h92, hc]
  | cons y t => simp [tog, h92, hc]

theorem tog_cpat (c : Nat) (h : c ≠ 92) (r : List Nat) :
    tog c (c :: r) = 92 :: c :: tog c r := by
  cases r with
  | nil => simp [tog, h]
  | cons y t => simp [tog, h]

/-- The split/replace/join transform of `_pattern_escape_invert` for one
metacharacter agrees with the single-pass scanner `tog`. -/
theorem escFlip_eq_tog (c : Nat) (hc : c ≠ 92) :
    ∀ (n : Nat) (l : List Nat), l.length ≤ n → escFlip c l = tog c l := by
  intro n
  induction n with
  | zero =>
    intro l h
    have hl : l = [] := by cases l with
      | nil => rfl
      | cons x t => simp at h
    subst hl
    rfl
  | succ n ih =>
    intro l hlen
    rcases l with _ | ⟨x, _ | ⟨y, rest⟩⟩
    · rfl
    · rw [escFlip_one, tog_single]
      by_cases h92 : x = 92
      · subst h92
        simp [Ne.symm hc]
      · simp [h92]
    · simp only [List.length_cons] at hlen
      by_cases h92 : x = 92
      · subst h92
        by_cases hyc : y = c
        · subst hyc
          rw [escFlip_esc, tog_esc, ih rest (by omega)]
        · rw [escFlip_cons2 c 92 y rest (by simp [hyc]), tog_bs c y hyc,
            ih (y :: rest) (by simp; omega)]
          simp [Ne.symm hc]
      · rw [escFlip_cons2 c x y rest (by simp [h92]), ih (y :: rest) (by simp; omega)]
        by_cases hxc : x = c
        · rw [hxc, tog_cpat c hc]
          simp
        · rw [tog_head c x h92 hxc]
          simp [hxc]

theorem noBB_tail (x : Nat) (l : List Nat) (h : noBB (x :: l) = true) : noBB l = true := by
  cases l with
  | nil => rfl
  | cons y t =>
    rw [noBB, Bool.and_eq_true] at h
    exact h.2

theorem noBB_cons_of_ne (x : Nat) (l : List Nat) (hx : x ≠ 92) (h : noBB l = true) :
    noBB (x :: l) = true := by
  cases l with
  | nil => rfl
  | cons y t =>
    rw [noBB]
    simp [hx, h]

theorem noBB_cons2 (x y : Nat) (l : List Nat) (hxy : ¬(x = 92 ∧ y = 92))
    (h : noBB (y :: l) = true) : noBB (x :: y :: l) = true := by
  rw [noBB]
  simp [hxy, h]

theorem noBB_pair (x y : Nat) (l : List Nat) (h : noBB (x :: y :: l) = true) :
    ¬(x = 92 ∧ y = 92) := by
  rw [noBB, Bool.and_eq_true] at h
  exact of_decide_eq_true h.1

theorem tog_tog_aux (c : Nat) (hc : c ≠ 92) :
    ∀ (n : Nat) (l : List Nat), l.length ≤ n → noBB l = true →
      tog c (tog c l) = l := by
  intro n
  induction n with
  | zero =>
    intro l h _
    have hl : l = [] := by cases l with
      | nil => rfl
      | cons x t => simp at h
    subst hl
    rfl
  | succ n ih =>
    intro l hlen hbb
    rcases l with _ | ⟨x, _ | ⟨y, rest⟩⟩
    · rfl
    · by_cases h92 : x = 92
      · rw [h92]
        simp [tog_single]
      · by_cases hxc : x = c
        · rw [hxc]
          simp [tog_single, hc, tog_esc, tog_nil]
        · simp [tog_single, h92, hxc]
    · simp only [List.length_cons] at hlen
      have hbbt : noBB (y :: rest) = true := noBB_tail x _ hbb
      have hbbr : noBB rest = true := noBB_tail y _ hbbt
      by_cases h92 : x = 92
      · have hy92 : y ≠ 92 := by
          have := noBB_pair x y rest hbb
          intro hy
          exact this ⟨h92, hy⟩
        by_cases hyc : y = c
        · rw [h92, hyc, tog_esc, tog_cpat c hc, ih rest (by omega) hbbr]
        · rw [h92, tog_bs c y hyc, tog_head c y hy92 hyc, tog_bs c y hyc,
            tog_head c y hy92 hyc, ih rest (by omega) hbbr]
      · by_cases hxc : x = c
        · rw [hxc, tog_cpat c hc, tog_esc, ih (y :: rest) (by simp; omega) hbbt]
        · rw [tog_head c x h92 hxc, tog_head c x h92 hxc,
            ih (y :: rest) (by simp; omega) hbbt]

theorem noBB_tog_aux (c : Nat) (hc : c ≠ 92) :
    ∀ (n : Nat) (l : List Nat), l.length ≤ n → noBB l = true →
      noBB (tog c l) = true := by
  intro n
  induction n with
  | zero =>
    intro l h _
    have hl : l = [] := by cases l with
      | nil => rfl
      | cons x t => simp at h
    subst hl
    rfl
  | succ n ih =>
    intro l hlen hbb
    rcases l with _ | ⟨x, _ | ⟨y, rest⟩⟩
    · rfl
    · rw [tog_single]
      by_cases h92 : x = 92
      · simp [h92, noBB]
      · by_cases hxc : x = c
        · simp [h92, hxc, noBB, hc]
        · simp [h92, hxc, noBB]
    · simp only [List.length_cons] at hlen
      have hbbt : noBB (y :: rest) = true := noBB_tail x _ hbb
      have hbbr : noBB rest = true := noBB_tail y _ hbbt
      by_cases h92 : x = 92
      · have hy92 : y ≠ 92 := by
          have := noBB_pair x y rest hbb
          intro hy
          exact this ⟨h92, hy⟩
        by_cases hyc : y = c
        · rw [h92, hyc, tog_esc]
          exact noBB_cons_of_ne c _ hc (ih rest (by omega) hbbr)
        · rw [h92, tog_bs c y hyc, tog_head c y hy92 hyc]
          refine noBB_cons2 92 y _ (by intro hp; exact hy92 hp.2) ?_
          exact noBB_cons_of_ne y _ hy92 (ih rest (by omega) hbbr)
      · by_cases hxc : x = c
        · rw [hxc, tog_cpat c hc]
          refine noBB_cons2 92 c _ (by intro hp; exact hc hp.2) ?_
          exact noBB_cons_of_ne c _ hc (ih (y :: rest) (by simp; omega) hbbt)
        · rw [tog_head c x h92 hxc]
          exact noBB_cons_of_ne x _ h92 (ih (y :: rest) (by simp; omega) hbbt)

theorem tog_comm_aux (a b : Nat) (ha : a ≠ 92) (hb : b ≠ 92) (hab : a ≠ b) :
    ∀ (n : Nat) (l : List Nat), l.length ≤ n → noBB l = true →
      tog a (tog b l) = tog b (tog a l) := by
  intro n
  induction n with
  | zero =>
    intro l h _
    have hl : l = [] := by cases l with
      | nil => rfl
      | cons x t => simp at h
    subst hl
    rfl
  | succ n ih =>
    intro l hlen hbb
    rcases l with _ | ⟨x, _ | ⟨y, rest⟩⟩
    · rfl
    · by_cases h92 : x = 92
      · rw [h92]
        simp [tog_single]
      · by_cases hxb : x = b
        · have t1 : tog b [b] = [92, b] := by simp [tog_single, hb]
          have t2 : tog a [b] = [b] := by simp [tog_single, hb, Ne.symm hab]
          have t3 : tog a [92, b] = [92, b] := by
            rw [tog_bs a b (Ne.symm hab), t2]
          rw [hxb, t1, t2, t1, t3]
        · by_cases hxa : x = a
          · have t1 : tog a [a] = [92, a] := by simp [tog_single, ha]
            have t2 : tog b [a] = [a] := by simp [tog_single, ha, hab]
            have t3 : tog b [92, a] = [92, a] := by
              rw [tog_bs b a hab, t2]
            rw [hxa, t2, t1, t3]
          · have t1 : tog b [x] = [x] := by simp [tog_single, h92, hxb]
            have t2 : tog a [x] = [x] := by simp [tog_single, h92, hxa]
            rw [t1, t2, t1]
    · simp only [List.length_cons] at hlen
      have hbbt : noBB (y :: rest) = true := noBB_tail x _ hbb
      have hbbr : noBB rest = true := noBB_tail y _ hbbt
      by_cases h92 : x = 92
      · have hy92 : y ≠ 92 := by
          have := noBB_pair x y rest hbb
          intro hy
          exact this ⟨h92, hy⟩
        by_cases hyb : y = b
        · rw [h92, hyb, tog_esc, tog_head a b hb (Ne.symm hab),
            tog_bs a b (Ne.symm hab), tog_head a b hb (Ne.symm hab), tog_esc,
            ih rest (by omega) hbbr]
        · by_cases hya : y = a
          · rw [h92, hya, tog_bs b a hab, tog_head b a ha hab, tog_esc, tog_esc,
              tog_head b a ha hab, ih rest (by omega) hbbr]
          · rw [h92, tog_bs b y hyb, tog_head b y hy92 hyb, tog_bs a y hya,
              tog_head a y hy92 hya, tog_bs a y hya, tog_head a y hy92 hya,
              tog_bs b y hyb, tog_head b y hy92 hyb, ih rest (by omega) hbbr]
      · by_cases hxb : x = b
        · rw [hxb, tog_cpat b hb, tog_bs a b (Ne.symm hab),
            tog_head a b hb (Ne.symm hab), tog_head a b hb (Ne.symm hab),
            tog_cpat b hb, ih (y :: rest) (by simp; omega) hbbt]
        · by_cases hxa : x = a
          · rw [hxa, tog_head b a ha hab, tog_cpat a ha (tog b (y :: rest)),
              tog_cpat a ha (y :: rest), tog_bs b a hab, tog_head b a ha hab,
              ih (y :: rest) (by simp; omega) hbbt]
          · rw [tog_head b x h92 hxb, tog_head a x h92 hxa, tog_head a x h92 hxa,
              tog_head b x h92 hxb, ih (y :: rest) (by simp; omega) hbbt]

theorem tog_tog (c : Nat) (hc : c ≠ 92) (l : List Nat) (hbb : noBB l = true) :
    tog c (tog c l) = l :=
  tog_tog_aux c hc l.length l le_rfl hbb

theorem noBB_tog (c : Nat) (hc : c ≠ 92) (l : List Nat) (hbb : noBB l = true) :
    noBB (tog c l) = true :=
  noBB_tog_aux c hc l.length l le_rfl hbb

theorem tog_comm (a b : Nat) (ha : a ≠ 92) (hb : b ≠ 92) (hab : a ≠ b)
    (l : List Nat) (hbb : noBB l = true) : tog a (tog b l) = tog b (tog a l) :=
  tog_comm_aux a b ha hb hab l.length l le_rfl hbb

theorem noBB_foldTog : ∀ (cs : List Nat), (∀ c ∈ cs, c ≠ 92) →
    ∀ (l : List Nat), noBB l = true → noBB (foldTog cs l) = true := by
  intro cs
  induction cs with
  | nil => intro _ l h; exact h
  | cons c cs ih =>
    intro hmem l h
    exact ih (fun d hd => hmem d (List.mem_cons_of_mem _ hd)) (tog c l)
      (noBB_tog c (hmem c (List.mem_cons_self _ _)) l h)

theorem tog_foldTog_comm (a : Nat) (ha : a ≠ 92) :
    ∀ (cs : List Nat), (∀ c ∈ cs, c ≠ 92) → a ∉ cs →
      ∀ (l : List Nat), noBB l = true →
        tog a (foldTog cs l) = foldTog cs (tog a l) := by
  intro cs
  induction cs with
  | nil => intro _ _ l _; rfl
  | cons c cs ih =>
    intro hmem hnin l hbb
    have hc92 : c ≠ 92 := hmem c (List.mem_cons_self _ _)
    have hac : a ≠ c := by
      intro h
      exact hnin (h ▸ List.mem_cons_self _ _)
    have step : tog a (foldTog cs (tog c l)) = foldTog cs (tog a (tog c l)) :=
      ih (fun d hd => hmem d (List.mem_cons_of_mem _ hd))
        (fun hin => hnin (List.mem_cons_of_mem _ hin)) (tog c l)
        (noBB_tog c hc92 l hbb)
    show tog a (foldTog cs (tog c l)) = foldTog cs (tog c (tog a l))
    rw [step, tog_comm a c ha hc92 hac l hbb]

theorem foldTog_involution : ∀ (cs : List Nat), (∀ c ∈ cs, c ≠ 92) →
    List.Pairwise (fun u v => u ≠ v) cs →
    ∀ (l : List Nat), noBB l = true → foldTog cs (foldTog cs l) = l := by
  intro cs
  induction cs with
  | nil => intro _ _ l _; rfl
  | cons c cs ih =>
    intro hmem hpw l hbb
    have hc92 : c ≠ 92 := hmem c (List.mem_cons_self _ _)
    have hcs : ∀ d ∈ cs, d ≠ 92 := fun d hd => hmem d (List.mem_cons_of_mem _ hd)
    have hnin : c ∉ cs := by
      intro hin
      exact (List.pairwise_cons.mp hpw).1 c hin rfl
    show foldTog cs (tog c (foldTog cs (tog c l))) = l
    rw [tog_foldTog_comm c hc92 cs hcs hnin (tog c l) (noBB_tog c hc92 l hbb),
      tog_tog c hc92 l hbb]
    exact ih hcs (List.pairwise_cons.mp hpw).2 l hbb

theorem pattern_escape_invert_eq_fold : ∀ (cs : List Nat), (∀ c ∈ cs, c ≠ 92) →
    ∀ (l : List Nat), pattern_escape_invert l cs = foldTog cs l := by
  intro cs
  induction cs with
  | nil => intro _ l; rfl
  | cons c cs ih =>
    intro hmem l
    show pattern_escape_invert (escFlip c l) cs = foldTog cs (tog c l)
    rw [escFlip_eq_tog c (hmem c (List.mem_cons_self _ _)) l.length l le_rfl]
    exact ih (fun d hd => hmem d (List.mem_cons_of_mem _ hd)) (tog c l)

/-- Amended C8: the basic-regex escape-inversion transform is an
involution on every pattern containing no two consecutive backslashes
(escaped-backslash pairs are the inputs the textual split/replace/join
transform mangles). -/
theorem c8_involution_noBB (p : List Nat) (h : noBB p = true) :
    escInvertAll (escInvertAll p) = p := by
  have hmem : ∀ c ∈ [63, 43, 123, 125, 124, 40, 41], c ≠ (92 : Nat) := by decide
  have hpw : List.Pairwise (fun u v => u ≠ v) ([63, 43, 123, 125, 124, 40, 41] : List Nat) := by
    decide
  unfold escInvertAll
  rw [pattern_escape_invert_eq_fold _ hmem p, pattern_escape_invert_eq_fold _ hmem _]
  exact foldTog_involution _ hmem hpw p h

/-- Witness for `c8_involution_noBB` on the pattern backslash-lparen-a. -/
theorem c8_involution_noBB_witness :
    noBB [92, 40, 97] = true ∧ escInvertAll (escInvertAll [92, 40, 97]) = [92, 40, 97] :=
  ⟨by decide, c8_involution_noBB [92, 40, 97] (by decide)⟩

theorem parseRegexGo_error_iff (l : List Nat) : ∀ (pats : List RPat)
    (spans : List (Nat × Nat)),
    (parseRegexGo defaultRCfg l pats false spans = Except.error ()) ↔
      scanReachesBad pats l = true := by
  intro pats
  induction pats with
  | nil =>
    intro spans
    simp [parseRegexGo, scanReachesBad]
  | cons p rest ih =>
    intro spans
    cases p with
    | bad => simp [parseRegexGo, scanReachesBad]
    | lit q =>
      by_cases hm : reFinditerLit q l = []
      · rw [parseRegexGo, scanReachesBad]
        simp only [defaultRCfg, reFinditerFlag]
        simp [hm]
        exact ih spans
      · rw [parseRegexGo, scanReachesBad]
        simp only [defaultRCfg, reFinditerFlag]
        simp [hm]

theorem parseRegex_error_iff (pats : List RPat) (l : List Nat) :
    (parseRegex defaultRCfg pats l = Except.error ()) ↔ scanReachesBad pats l = true :=
  parseRegexGo_error_iff l pats []

/-- Amended C4: no pre-flight validation exists.  A run in the default
configuration aborts with `re.error` exactly when some line's pattern
scan reaches an invalid pattern (no earlier pattern matched that line),
and the lines emitted are exactly the selected lines read before the
first aborting line. -/
theorem c4_error_only_when_scanned (pats : List RPat) (lines : List (List Nat)) :
    (executeLines defaultRCfg pats lines).2 = lines.any (fun l => scanReachesBad pats l)
    ∧ (executeLines defaultRCfg pats lines).1 =
      (lines.takeWhile (fun l => !scanReachesBad pats l)).filter (lineSelected pats) := by
  induction lines with
  | nil => simp [executeLines]
  | cons l rest ih =>
    rw [executeLines]
    cases hp : parseRegex defaultRCfg pats l with
    | error e =>
      cases e
      have hs : scanReachesBad pats l = true := (parseRegex_error_iff pats l).mp hp
      simp [hs]
    | ok pr =>
      have hs : scanReachesBad pats l = false := by
        by_cases h : scanReachesBad pats l = true
        · have h2 := (parseRegex_error_iff pats l).mpr h
          rw [hp] at h2
          exact absurd h2 (by simp)
        · simpa using h
      have hsel : lineSelected pats l = pr.1 := by
        unfold lineSelected
        rw [hp]
      simp [hs, ih.1, ih.2, List.filter_cons, hsel]
      by_cases hpr : pr.1 = true <;> simp [hpr]

theorem not_suffix_nil (nl : List Nat) (hnl : nl ≠ []) :
    ¬ List.isSuffixOf nl ([] : List Nat) := by
  rw [List.isSuffixOf_iff_suffix, List.suffix_nil]
  exact hnl

theorem stdinLines_eof (nl : List Nat) (limit : Nat) :
    ∀ (fuel : Nat) (st : StdinState), st.eofDetected = true →
      stdinLines nl limit fuel st = [] := by
  intro fuel st h
  cases fuel with
  | zero => rfl
  | succ fuel =>
    rw [stdinLines]
    simp [stdinNext, h]

theorem fileLines_closed (nl : List Nat) (limit : Nat) :
    ∀ (fuel : Nat) (st : AutoFileState), st.fpOpen = false →
      fileLines nl limit fuel st = [] := by
  intro fuel st h
  cases fuel with
  | zero => rfl
  | succ fuel =>
    rw [fileLines]
    simp [autoNext, h]

theorem readLine_chunk_zero (nl : List Nat) (limit : Nat) (hnl : nl ≠ []) (s : List Nat) :
    readLineAux nl limit [] [] s =
      ((chunk1 nl [] s).1.take limit, (chunk1 nl [] s).2.1, (chunk1 nl [] s).2.2) := by
  have h := readLine_chunk nl limit s [] (not_suffix_nil nl hnl)
  simpa [lastN] using h

/-- Iterating `StdinIterable` exhausts the stream into its
delimiter-terminated chunks (each capped at the byte limit) plus one
final, possibly-empty residue line. -/
theorem stdinLines_spec (nl : List Nat) (limit : Nat) (hnl : nl ≠ []) :
    ∀ (fuel : Nat) (s : List Nat), s.length < fuel →
      stdinLines nl limit fuel ⟨s, false⟩ =
        (chunksAll nl fuel s).1.map (fun c => c.take limit) ++
          [(chunksAll nl fuel s).2.take limit] := by
  intro fuel
  induction fuel with
  | zero => intro s h; exact absurd h (Nat.not_lt_zero _)
  | succ fuel ih =>
    intro s hlen
    rcases hch : chunk1 nl [] s with ⟨c, rest, flag⟩
    have hscan : readLineAux nl limit [] [] s = (c.take limit, rest, flag) := by
      rw [readLine_chunk_zero nl limit hnl s, hch]
    have hnext := stdinNext_of_scan nl limit ⟨s, false⟩ (c.take limit) rest flag rfl hscan
    rw [stdinLines, chunksAll]
    simp only [hnext, hch]
    cases flag with
    | true =>
      have hc := chunk1_eof nl s [] (by rw [hch])
      rw [hch] at hc
      simp only at hc
      rw [stdinLines_eof nl limit fuel ⟨rest, true⟩ rfl]
      simp [hc.1]
    | false =>
      have hprog := chunk1_progress nl s [] (by rw [hch])
      rw [hch] at hprog
      simp only at hprog
      rw [ih rest (by omega)]
      simp

/-- Iterating `AutoInputFileIterable` exhausts the stream into its
delimiter-terminated chunks (capped at the byte limit) and the residue
line only when the residue is non-empty: no final empty line is ever
produced. -/
theorem fileLines_spec (nl : List Nat) (limit : Nat) (hnl : nl ≠ []) (hlim : 0 < limit) :
    ∀ (fuel : Nat) (s : List Nat), s.length < fuel →
      fileLines nl limit fuel ⟨s, true⟩ =
        (chunksAll nl fuel s).1.map (fun c => c.take limit) ++
          (if (chunksAll nl fuel s).2 = [] then []
           else [(chunksAll nl fuel s).2.take limit]) := by
  intro fuel
  induction fuel with
  | zero => intro s h; exact absurd h (Nat.not_lt_zero _)
  | succ fuel ih =>
    intro s hlen
    rcases hch : chunk1 nl [] s with ⟨c, rest, flag⟩
    have hscan : readLineAux nl limit [] [] s = (c.take limit, rest, flag) := by
      rw [readLine_chunk_zero nl limit hnl s, hch]
    rw [fileLines, chunksAll]
    cases flag with
    | true =>
      have hc := chunk1_eof nl s [] (by rw [hch])
      rw [hch] at hc
      simp only at hc
      rcases hc with ⟨hc1, hc2⟩
      subst hc2
      rcases Decidable.em (s = []) with hs | hs
      · subst hs
        have hb : c.take limit = [] := by
          rw [hc1]
          simp
        have hnext := autoNext_of_scan_nil nl limit ⟨[], true⟩ [] true rfl
          (by rw [hscan, hb])
        simp only [hnext, hch]
        simp [hc1]
      · have hb : c.take limit ≠ [] := by
          rw [hc1, List.nil_append, Ne, List.take_eq_nil_iff]
          push_neg
          exact ⟨by omega, hs⟩
        have hnext := autoNext_of_scan nl limit ⟨s, true⟩ (c.take limit) [] true rfl hscan hb
        simp only [hnext, hch]
        rw [fileLines_closed nl limit fuel ⟨[], !true⟩ rfl]
        rw [hc1, List.nil_append]
        simp [hs]
    | false =>
      have hprog := chunk1_progress nl s [] (by rw [hch])
      rw [hch] at hprog
      simp only at hprog
      have hcne := chunk1_found_ne_nil nl s [] (by rw [hch])
      rw [hch] at hcne
      simp only at hcne
      have hb : c.take limit ≠ [] := by
        rw [Ne, List.take_eq_nil_iff]
        push_neg
        exact ⟨by omega, hcne⟩
      have hnext := autoNext_of_scan nl limit ⟨s, true⟩ (c.take limit) rest false rfl hscan hb
      simp only [hnext, hch]
      rw [show (!false) = true from rfl, ih rest (by omega)]
      simp

/-- C10: over any stream, standard-input iteration yields the
delimiter-terminated lines and then always one extra final
(possibly-empty) line — the residue after the last delimiter — before
`StopIteration`; file iteration yields the same lines but omits the
extra line exactly when the residue is empty (it never produces an empty
final line). -/
theorem c10_stdin_extra_line (nl : List Nat) (limit : Nat) (s : List Nat)
    (hnl : nl ≠ []) (hlim : 0 < limit) :
    stdinLines nl limit (s.length + 1) ⟨s, false⟩ =
      (chunksAll nl (s.length + 1) s).1.map (fun c => c.take limit) ++
        [(chunksAll nl (s.length + 1) s).2.take limit]
    ∧ fileLines nl limit (s.length + 1) ⟨s, true⟩ =
      (chunksAll nl (s.length + 1) s).1.map (fun c => c.take limit) ++
        (if (chunksAll nl (s.length + 1) s).2 = [] then []
         else [(chunksAll nl (s.length + 1) s).2.take limit]) :=
  ⟨stdinLines_spec nl limit hnl (s.length + 1) s (by omega),
   fileLines_spec nl limit hnl hlim (s.length + 1) s (by omega)⟩

/-- Witness for `c10_stdin_extra_line` on the stream `a\n` with
delimiter `\n` and cap 5: stdin yields the line and then an empty final
line, the file source yields only the line. -/
theorem c10_stdin_extra_line_witness :
    (([10] : List Nat) ≠ [] ∧ 0 < 5) ∧
    (stdinLines [10] 5 ([97, 10].length + 1) ⟨[97, 10], false⟩ =
      (chunksAll [10] ([97, 10].length + 1) [97, 10]).1.map (fun c => c.take 5) ++
        [(chunksAll [10] ([97, 10].length + 1) [97, 10]).2.take 5]
    ∧ fileLines [10] 5 ([97, 10].length + 1) ⟨[97, 10], true⟩ =
      (chunksAll [10] ([97, 10].length + 1) [97, 10]).1.map (fun c => c.take 5) ++
        (if (chunksAll [10] ([97, 10].length + 1) [97, 10]).2 = [] then []
         else [(chunksAll [10] ([97, 10].length + 1) [97, 10]).2.take 5])) :=
  ⟨⟨by decide, by decide⟩, c10_stdin_extra_line [10] 5 [97, 10] (by decide) (by decide)⟩

/-- Witness for `c9_empty_map_identity` at a concrete base string. -/
theorem c9_empty_map_identity_witness :
    ansiFormat ⟨[104, 105], []⟩ none = [104, 105] :=
  c9_empty_map_identity [104, 105]

/-- Witness for `c4_error_only_when_scanned` at concrete patterns and
lines. -/
theorem c4_error_only_when_scanned_witness :
    (executeLines defaultRCfg [RPat.lit [97], RPat.bad] [[97, 112], [120]]).2 =
      [[97, 112], [120]].any (fun l => scanReachesBad [RPat.lit [97], RPat.bad] l)
    ∧ (executeLines defaultRCfg [RPat.lit [97], RPat.bad] [[97, 112], [120]]).1 =
      ([[97, 112], [120]].takeWhile
          (fun l => !scanReachesBad [RPat.lit [97], RPat.bad] l)).filter
        (lineSelected [RPat.lit [97], RPat.bad]) :=
  c4_error_only_when_scanned [RPat.lit [97], RPat.bad] [[97, 112], [120]]
